import Mathlib

/-!
Verification of the analytics engine of the RestaurantPlaneer repository
(`src/utils/calculations.ts`, the later variant of the module, i.e. the one
whose labor-cost formula is `employeeHoursRequired * averageHourlyRate`;
the design notes of the specification single this variant out as the
authoritative one).

Shallow embedding conventions:
  * JS `number` is modelled by `ℚ`.  Every division the code performs is
    guarded by the code itself (the guard is reproduced here), so the
    `ℚ` division total semantics never diverges from IEEE semantics on the
    executions the theorems talk about.
  * A JS `Date` is modelled by `Option DateFields`: `none` is an Invalid
    Date (every numeric getter returns NaN, and NaN comparisons are false).
  * A JS `Map` (insertion ordered) is modelled by an association list with
    `mapSet` / `mapGet` below.
  * `Array.prototype.sort` with a numeric comparator is modelled by
    `List.insertionSort` with the corresponding relation (JS sort is
    stable and so is insertion sort; the claims below only use sortedness,
    length and the permutation property).
  * Functions reading the storage snapshot (`storageService.get…`) take the
    four collections as explicit parameters.
  * A thrown JS exception is modelled by `Option.none` in functions whose
    translation returns `Option _`.
-/

/-- `ProductIngredient` of `src/types`. -/
structure ProductIngredient where
  productId : String
  quantity : ℚ
  unit : String
deriving DecidableEq, Repr

/-- `Product` of `src/types`. -/
structure Product where
  id : String
  name : String
  price : ℚ
  category : String
  ingredients : List ProductIngredient
  preparationTime : ℚ
  storageRequired : ℚ
  employeeHoursRequired : ℚ
deriving DecidableEq, Repr

/-- `Employee` of `src/types`. -/
structure Employee where
  id : String
  name : String
  role : String
  hourlyRate : ℚ
  hoursPerWeek : ℚ
deriving DecidableEq, Repr

/-- The observations the analytics code makes of a valid JS `Date`:
`getFullYear()`, `getMonth()`, `getDate()`, `getTime()` and the date part of
`toISOString()`. -/
structure DateFields where
  year : Int
  month : Int
  dayOfMonth : Int
  time : Int
  iso : String
deriving DecidableEq, Repr

/-- A JS `Date`; `none` models an Invalid Date. -/
def JSDate : Type := Option DateFields
deriving DecidableEq, Repr

/-- `Sale` of `src/types`. -/
structure Sale where
  id : String
  productId : String
  quantity : ℚ
  price : ℚ
  date : JSDate
  employeeId : String
deriving DecidableEq, Repr

/-- `Expense` of `src/types`. -/
structure Expense where
  id : String
  description : String
  amount : ℚ
  category : String
  date : JSDate
deriving DecidableEq, Repr

/-- `ProductCostAnalysis` of `src/types`. -/
structure ProductCostAnalysis where
  productId : String
  productName : String
  revenue : ℚ
  ingredientCost : ℚ
  laborCost : ℚ
  storageCost : ℚ
  totalCost : ℚ
  margin : ℚ
  marginPercentage : ℚ
  unitsSold : ℚ
deriving DecidableEq, Repr

/-! ## Cost model (`calculateProductCost`) -/

/-- `const STORAGE_COST_PER_CUBIC_METER = 5` (monthly cost per cubic meter). -/
def STORAGE_COST_PER_CUBIC_METER : ℚ := 5

/-- The `ingredientCost` local of `calculateProductCost`:
`product.ingredients.reduce((sum, ing) => sum + ing.quantity * 0.5, 0)`. -/
def ingredientCostOf (product : Product) : ℚ :=
  product.ingredients.foldl (fun sum ing => sum + ing.quantity * (1 / 2)) 0

/-- The `averageHourlyRate` local of `calculateProductCost`:
mean hourly rate over the employees, or the default rate 15 when there are
no employees. -/
def averageHourlyRateOf (employees : List Employee) : ℚ :=
  if employees.length > 0 then
    employees.foldl (fun sum emp => sum + emp.hourlyRate) 0 / (employees.length : ℚ)
  else 15

/-- The `laborCost` local of `calculateProductCost`:
`product.employeeHoursRequired * averageHourlyRate`. -/
def laborCostOf (product : Product) (employees : List Employee) : ℚ :=
  product.employeeHoursRequired * averageHourlyRateOf employees

/-- The `storageCost` local of `calculateProductCost`:
`(product.storageRequired * STORAGE_COST_PER_CUBIC_METER) / 30`. -/
def storageCostOf (product : Product) : ℚ :=
  product.storageRequired * STORAGE_COST_PER_CUBIC_METER / 30

/-- `calculateProductCost` of `src/utils/calculations.ts`. -/
def calculateProductCost (product : Product) (employees : List Employee) : ℚ :=
  ingredientCostOf product + laborCostOf product employees + storageCostOf product

/-- Division that fails instead of defaulting, used to express that every
division the cost formula performs has a nonzero denominator. -/
def qdiv? (a b : ℚ) : Option ℚ :=
  if b = 0 then none else some (a / b)

/-- `calculateProductCost` with every division site routed through `qdiv?`:
it returns `none` exactly when some division of the source formula would
divide by zero (and hence produce NaN or Infinity in JS). -/
def calculateProductCostChecked (product : Product) (employees : List Employee) :
    Option ℚ := do
  let ingredientCost := ingredientCostOf product
  let averageHourlyRate ←
    if employees.length > 0 then
      qdiv? (employees.foldl (fun sum emp => sum + emp.hourlyRate) 0) (employees.length : ℚ)
    else pure 15
  let laborCost := product.employeeHoursRequired * averageHourlyRate
  let storageCost ← qdiv? (product.storageRequired * STORAGE_COST_PER_CUBIC_METER) 30
  pure (ingredientCost + laborCost + storageCost)

/-! ## Per-product performance analysis (`analyzeProductPerformance`) -/

/-- `analyzeProductPerformance` of `src/utils/calculations.ts`; `none`
models the `null` return for an unknown product id. -/
def analyzeProductPerformance (productId : String) (products : List Product)
    (sales : List Sale) (employees : List Employee) : Option ProductCostAnalysis :=
  match products.find? (fun p => p.id == productId) with
  | none => none
  | some product =>
    let productSales := sales.filter (fun s => s.productId == productId)
    let unitsSold := productSales.foldl (fun sum s => sum + s.quantity) 0
    let revenue := productSales.foldl (fun sum s => sum + s.price * s.quantity) 0
    let costPerUnit := calculateProductCost product employees
    let totalCost := costPerUnit * unitsSold
    let ingredientCost := ingredientCostOf product * unitsSold
    let laborCost := product.employeeHoursRequired * averageHourlyRateOf employees * unitsSold
    let storageCost := product.storageRequired * STORAGE_COST_PER_CUBIC_METER / 30 * unitsSold
    let margin := revenue - totalCost
    let marginPercentage := if revenue > 0 then margin / revenue * 100 else 0
    some {
      productId := product.id
      productName := product.name
      revenue := revenue
      ingredientCost := ingredientCost
      laborCost := laborCost
      storageCost := storageCost
      totalCost := totalCost
      margin := margin
      marginPercentage := marginPercentage
      unitsSold := unitsSold }

/-! ## Dashboard aggregate statistics (`getDashboardStats`) -/

/-- `DashboardStats`, the return shape of `getDashboardStats`. -/
structure DashboardStats where
  totalRevenue : ℚ
  totalExpenses : ℚ
  netProfit : ℚ
  topProducts : List ProductCostAnalysis
  profitMargin : ℚ
  averageOrderValue : ℚ
deriving DecidableEq, Repr

/-- The comparator `(a, b) => b.margin - a.margin` of the `topProducts`
sort: `a` precedes `b` when `a.margin ≥ b.margin`. -/
def marginGe (a b : ProductCostAnalysis) : Prop := b.margin ≤ a.margin

instance : DecidableRel marginGe :=
  fun a b => inferInstanceAs (Decidable (b.margin ≤ a.margin))

instance : IsTotal ProductCostAnalysis marginGe :=
  ⟨fun a b => le_total b.margin a.margin⟩

instance : IsTrans ProductCostAnalysis marginGe :=
  ⟨fun _ _ _ hab hbc => le_trans hbc hab⟩

/-- `getDashboardStats` of `src/utils/calculations.ts`, with the storage
snapshot passed explicitly. -/
def getDashboardStats (products : List Product) (sales : List Sale)
    (expenses : List Expense) (employees : List Employee) : DashboardStats :=
  let totalRevenue := sales.foldl (fun sum s => sum + s.price * s.quantity) 0
  let totalExpenses := expenses.foldl (fun sum e => sum + e.amount) 0
  let productCosts := products.foldl (fun sum product =>
    let productSales := sales.filter (fun s => s.productId == product.id)
    let unitsSold := productSales.foldl (fun s sale => s + sale.quantity) 0
    sum + calculateProductCost product employees * unitsSold) 0
  let totalCosts := totalExpenses + productCosts
  let netProfit := totalRevenue - totalCosts
  let profitMargin := if totalRevenue > 0 then netProfit / totalRevenue * 100 else 0
  let productAnalyses := products.filterMap
    (fun product => analyzeProductPerformance product.id products sales employees)
  let topProducts := (List.insertionSort marginGe productAnalyses).take 10
  let totalOrders := sales.length
  let averageOrderValue := if totalOrders > 0 then totalRevenue / (totalOrders : ℚ) else 0
  { totalRevenue := totalRevenue
    totalExpenses := totalCosts
    netProfit := netProfit
    topProducts := topProducts
    profitMargin := profitMargin
    averageOrderValue := averageOrderValue }

/-! ## Insertion-ordered map model (JS `Map`) -/

section MapModel

variable {κ ν : Type} [BEq κ]

/-- `Map.get`, as the first entry of the association list with the key. -/
def mapGet (m : List (κ × ν)) (k : κ) : Option ν :=
  (m.find? (fun e => e.1 == k)).map (fun e => e.2)

/-- `Map.set`: replace the value in place when the key is present,
append a new entry otherwise (JS `Map` keeps insertion order). -/
def mapSet (m : List (κ × ν)) (k : κ) (v : ν) : List (κ × ν) :=
  if m.any (fun e => e.1 == k) then
    m.map (fun e => if e.1 == k then (k, v) else e)
  else m ++ [(k, v)]

/-- The keys of the map, in insertion order. -/
def mapKeys (m : List (κ × ν)) : List κ := m.map (fun e => e.1)

end MapModel

/-! ## Sales grouped by employee (`getSalesByEmployee`) -/

/-- The `SalesByEmployee` row interface of `src/utils/calculations.ts`. -/
structure SalesByEmployee where
  employeeId : String
  employeeName : String
  totalSales : ℚ
  totalRevenue : ℚ
  numberOfSales : ℕ
deriving DecidableEq, Repr

/-- The comparator `(a, b) => b.totalRevenue - a.totalRevenue`. -/
def revenueGe (a b : SalesByEmployee) : Prop := b.totalRevenue ≤ a.totalRevenue

instance : DecidableRel revenueGe :=
  fun a b => inferInstanceAs (Decidable (b.totalRevenue ≤ a.totalRevenue))

instance : IsTotal SalesByEmployee revenueGe :=
  ⟨fun a b => le_total b.totalRevenue a.totalRevenue⟩

instance : IsTrans SalesByEmployee revenueGe :=
  ⟨fun _ _ _ hab hbc => le_trans hbc hab⟩

/-- The label expression `employee?.name || 'Desconocido'`: the employee's
name when the lookup succeeds and the name is truthy (nonempty), the
literal fallback string otherwise. -/
def employeeLabel (employees : List Employee) (employeeId : String) : String :=
  match employees.find? (fun e => e.id == employeeId) with
  | some emp => if emp.name = "" then "Desconocido" else emp.name
  | none => "Desconocido"

/-- One step of the `sales.forEach` accumulation of `getSalesByEmployee`:
the map value is the pair (accumulated revenue, accumulated count). -/
def salesByEmployeeStep (m : List (String × ℚ × ℕ)) (sale : Sale) :
    List (String × ℚ × ℕ) :=
  let existing := (mapGet m sale.employeeId).getD (0, 0)
  mapSet m sale.employeeId (existing.1 + sale.price * sale.quantity, existing.2 + 1)

/-- The `salesByEmployee` map after the `forEach` loop. -/
def salesByEmployeeMap (sales : List Sale) : List (String × ℚ × ℕ) :=
  sales.foldl salesByEmployeeStep []

/-- `getSalesByEmployee` of `src/utils/calculations.ts`, with the storage
snapshot passed explicitly. -/
def getSalesByEmployee (sales : List Sale) (employees : List Employee) :
    List SalesByEmployee :=
  List.insertionSort revenueGe
    ((salesByEmployeeMap sales).map (fun e =>
      { employeeId := e.1
        employeeName := employeeLabel employees e.1
        totalSales := e.2.1
        totalRevenue := e.2.1
        numberOfSales := e.2.2 }))

/-- Sum of the accumulated revenues of a `salesByEmployee` map. -/
def sumRev (m : List (String × ℚ × ℕ)) : ℚ := (m.map (fun e => e.2.1)).sum

/-! ## Sales grouped by day (`getSalesByDay`) -/

/-- `date.getMonth()`; `none` models the NaN of an Invalid Date. -/
def getMonth (d : JSDate) : Option Int := d.map (fun f => f.month)

/-- `date.getFullYear()`; `none` models NaN. -/
def getFullYear (d : JSDate) : Option Int := d.map (fun f => f.year)

/-- `date.getTime()`; `none` models NaN. -/
def getTime (d : JSDate) : Option Int := d.map (fun f => f.time)

/-- The day-of-month `date.getDate()` of a sale, `none` for an Invalid
Date. -/
def dayOf (s : Sale) : Option Int := s.date.map (fun f => f.dayOfMonth)

/-- JS `===` on two possibly-NaN numbers: false when either is NaN
(`NaN === x` is false for every `x`, including NaN itself). -/
def eqNum (a b : Option Int) : Bool :=
  match a, b with
  | some x, some y => x == y
  | _, _ => false

/-- JS `>=` on two possibly-NaN numbers: false when either is NaN. -/
def geNum (a b : Option Int) : Bool :=
  match a, b with
  | some x, some y => decide (y ≤ x)
  | _, _ => false

/-- The comparator `(a, b) => b.date.getTime() - a.date.getTime()`
(most recent first).  When either time is NaN the comparator returns NaN,
which the ECMAScript sort treats as neither less nor greater, i.e. as
equal — modelled by `true`. -/
def timeDescB (a b : Sale) : Bool :=
  match getTime a.date, getTime b.date with
  | some x, some y => decide (y ≤ x)
  | _, _ => true

/-- Propositional form of `timeDescB`, for `List.insertionSort`. -/
def timeDesc (a b : Sale) : Prop := timeDescB a b = true

instance : DecidableRel timeDesc :=
  fun a b => inferInstanceAs (Decidable (timeDescB a b = true))

/-- The `timeRange` argument of `getSalesByDay`. -/
inductive TimeRange where
  | week
  | month
deriving DecidableEq, Repr

/-- The `SalesByDay` row interface of `src/utils/calculations.ts`. -/
structure SalesByDay where
  day : Int
  date : String
  totalRevenue : ℚ
  totalQuantity : ℚ
  employees : List String
deriving DecidableEq, Repr

/-- The final `(a, b) => a.day - b.day` sort of `getSalesByDay`
(ascending day number). -/
def dayLe (a b : SalesByDay) : Prop := a.day ≤ b.day

instance : DecidableRel dayLe :=
  fun a b => inferInstanceAs (Decidable (a.day ≤ b.day))

instance : IsTotal SalesByDay dayLe := ⟨fun a b => le_total a.day b.day⟩

instance : IsTrans SalesByDay dayLe := ⟨fun _ _ _ hab hbc => le_trans hab hbc⟩

/-- JS `Set.add` on the per-day employee-name set: insertion ordered,
no duplicates. -/
def setAdd (s : List String) (x : String) : List String :=
  if s.contains x then s else s ++ [x]

/-- The month-window selection of `getSalesByDay`: the current calendar
month when it has sales, otherwise the month of the most recent sale
(`sortedSales[0]`, modelled by `head?`; it cannot fail here because the
caller checks `sales.length`).  A sale with an Invalid Date has NaN
month/year, so every `===` test on it is false and it never enters the
window; when the most recent sale itself has an Invalid Date the target
month is NaN and the window is empty. -/
def monthWindowOf (sales : List Sale) (now : DateFields) : Option (List Sale) := do
  let currentMonthSales := sales.filter (fun sale =>
    eqNum (getMonth sale.date) (some now.month)
      && eqNum (getFullYear sale.date) (some now.year))
  if currentMonthSales.length = 0 then do
    let first ← (List.insertionSort timeDesc sales).head?
    pure (sales.filter (fun sale =>
      eqNum (getMonth sale.date) (getMonth first.date)
        && eqNum (getFullYear sale.date) (getFullYear first.date)))
  else pure currentMonthSales

/-- The `filteredSales` value of `getSalesByDay` after the optional
"week" restriction.  The `sortedFiltered[0]` access of the source is NOT
guarded: when the month window is empty (every sale's date malformed) it
reads `.date` of `undefined` and throws — modelled by the `head?` bind
returning `none`. -/
def filteredSalesOf (sales : List Sale) (timeRange : TimeRange)
    (now : DateFields) : Option (List Sale) := do
  let filtered1 ← monthWindowOf sales now
  if timeRange = TimeRange.week then do
    let first ← (List.insertionSort timeDesc filtered1).head?
    let weekAgoTime := (getTime first.date).map (fun t => t - 7 * 24 * 60 * 60 * 1000)
    pure (filtered1.filter (fun sale => geNum (getTime sale.date) weekAgoTime))
  else pure filtered1

/-- One step of the day-of-month grouping reduce of `getSalesByDay`.
The bucket is created on first sight of the day (with the sale's ISO date
string) and accumulated in place afterwards; the employee name is added
to the day's set only when the `employeeId` lookup succeeds.  A sale with
an Invalid Date cannot reach this reduce (every window filter above
requires a finite month); its ISO string is therefore modelled as the
failure `none` (in JS, `toISOString` on an Invalid Date throws). -/
def salesByDayBucket (employees : List Employee) (acc : List (Int × SalesByDay))
    (sale : Sale) (f : DateFields) : SalesByDay :=
  let b0 := (mapGet acc f.dayOfMonth).getD
    { day := f.dayOfMonth, date := f.iso, totalRevenue := 0, totalQuantity := 0,
      employees := [] }
  let b1 := { b0 with
    totalRevenue := b0.totalRevenue + sale.price * sale.quantity
    totalQuantity := b0.totalQuantity + sale.quantity }
  match employees.find? (fun e => e.id == sale.employeeId) with
  | some emp => { b1 with employees := setAdd b1.employees emp.name }
  | none => b1

/-- The step itself: read the sale's date fields (failing on an Invalid
Date), then write the updated bucket back under the day key. -/
def salesByDayStep (employees : List Employee) (acc : List (Int × SalesByDay))
    (sale : Sale) : Option (List (Int × SalesByDay)) := do
  let f ← sale.date
  pure (mapSet acc f.dayOfMonth (salesByDayBucket employees acc sale f))

/-- `getSalesByDay` of `src/utils/calculations.ts`, with the storage
snapshot and the clock passed explicitly; `none` models a thrown
exception. -/
def getSalesByDay (sales : List Sale) (employees : List Employee)
    (timeRange : TimeRange) (now : DateFields) : Option (List SalesByDay) :=
  if sales.length = 0 then some []
  else do
    let filteredSales ← filteredSalesOf sales timeRange now
    let m ← filteredSales.foldlM (salesByDayStep employees) []
    pure (List.insertionSort dayLe (m.map (fun e => e.2)))

/-- The map value at day `d`, with the zero default of a fresh bucket. -/
def revAt (m : List (Int × SalesByDay)) (d : Int) : ℚ :=
  match mapGet m d with
  | some b => b.totalRevenue
  | none => 0

/-- The accumulated quantity at day `d`. -/
def qtyAt (m : List (Int × SalesByDay)) (d : Int) : ℚ :=
  match mapGet m d with
  | some b => b.totalQuantity
  | none => 0

/-- The accumulated employee-name set at day `d`. -/
def empAt (m : List (Int × SalesByDay)) (d : Int) : List String :=
  match mapGet m d with
  | some b => b.employees
  | none => []

/-! ## Example data of the specification (§8, loss-making product example) -/

/-- The example product of the specification: price 10, one employee-hour,
30 minutes preparation, 0.1 cubic meters storage, no ingredients. -/
def exampleProduct : Product :=
  { id := "p1", name := "Paella", price := 10, category := "main",
    ingredients := [], preparationTime := 30, storageRequired := 1 / 10,
    employeeHoursRequired := 1 }

/-- The example employee of the specification: hourly rate 15. -/
def exampleEmployee : Employee :=
  { id := "e1", name := "Ana", role := "cook", hourlyRate := 15, hoursPerWeek := 40 }

/-- A sale whose `employeeId` matches no employee of the empty roster:
used to exercise the dangling-reference path of the groupings.  Its date
is an Invalid Date, which also exercises the malformed-date path of
`getSalesByDay`. -/
def danglingSale : Sale :=
  { id := "s1", productId := "p1", quantity := 2, price := 10,
    date := none, employeeId := "e1" }

/-- A concrete clock for evaluating `getSalesByDay` (JS months are
0-based: month 9 is October). -/
def exampleNow : DateFields :=
  { year := 2026, month := 9, dayOfMonth := 11, time := 1791720000000,
    iso := "2026-10-11" }

/-- A sale with a valid date in the current month of `exampleNow` whose
`employeeId` matches no employee. -/
def ghostSale : Sale :=
  { id := "s2", productId := "p1", quantity := 3, price := 4,
    date := some { year := 2026, month := 9, dayOfMonth := 5,
                   time := 1791200000000, iso := "2026-10-05" },
    employeeId := "ghost" }

/-! ## General lemmas -/

/-- A left fold accumulating `+ f x` is the sum of the mapped list. -/
theorem foldl_add_map {α : Type} (f : α → ℚ) :
    ∀ (l : List α) (a : ℚ), l.foldl (fun s x => s + f x) a = a + (l.map f).sum := by
  intro l
  induction l with
  | nil => intro a; simp
  | cons x xs ih =>
      intro a
      simp [List.foldl_cons, ih, add_assoc]

section MapLemmas

variable {κ ν : Type} [BEq κ]

theorem mapSet_cons_of_ne (e : κ × ν) (m : List (κ × ν)) (k : κ) (v : ν)
    (he : (e.1 == k) = false) :
    mapSet (e :: m) k v = e :: mapSet m k v := by
  simp only [mapSet, List.any_cons, he, Bool.false_or]
  by_cases hany : m.any (fun x => x.1 == k) = true
  · simp [hany, he]
  · simp only [Bool.not_eq_true] at hany
    simp [hany]

theorem mapGet_mapSet_self [LawfulBEq κ] (m : List (κ × ν)) (k : κ) (v : ν) :
    mapGet (mapSet m k v) k = some v := by
  induction m with
  | nil => simp [mapSet, mapGet]
  | cons e rest ih =>
      by_cases he : (e.1 == k) = true
      · simp only [mapSet, List.any_cons, he, Bool.true_or, if_true]
        simp [mapGet, List.find?_cons, he]
      · simp only [Bool.not_eq_true] at he
        rw [mapSet_cons_of_ne e rest k v he]
        simp only [mapGet, List.find?_cons, he]
        exact ih

theorem mapGet_map_replace_ne [LawfulBEq κ] (k k' : κ) (v : ν)
    (hkk : ((k' : κ) == k) = false) :
    ∀ m : List (κ × ν),
      mapGet (m.map (fun x => if x.1 == k' then (k', v) else x)) k = mapGet m k := by
  intro m
  induction m with
  | nil => simp [mapGet]
  | cons r rs ih =>
      by_cases hr : (r.1 == k') = true
      · have hrk : r.1 = k' := eq_of_beq hr
        have hk1 : (r.1 == k) = false := by rw [hrk]; exact hkk
        simp only [List.map_cons, hr, if_true, mapGet, List.find?_cons, hkk, hk1]
        exact ih
      · simp only [Bool.not_eq_true] at hr
        have hne : ¬ ((r.1 == k') = true) := by simp [hr]
        simp only [List.map_cons, if_neg hne, mapGet, List.find?_cons]
        cases hq : (r.1 == k) with
        | true => rfl
        | false => exact ih

theorem mapGet_mapSet_ne [LawfulBEq κ] (m : List (κ × ν)) (k k' : κ) (v : ν)
    (hk : k ≠ k') :
    mapGet (mapSet m k' v) k = mapGet m k := by
  have hkk : ((k' : κ) == k) = false := beq_eq_false_iff_ne.mpr (fun h => hk h.symm)
  induction m with
  | nil =>
      simp [mapSet, mapGet, List.find?_cons, hkk]
  | cons e rest ih =>
      by_cases he : (e.1 == k') = true
      · have hek : e.1 = k' := eq_of_beq he
        have hek2 : (e.1 == k) = false := by rw [hek]; exact hkk
        simp only [mapSet, List.any_cons, he, Bool.true_or, if_true]
        simp only [List.map_cons, he, if_true, mapGet, List.find?_cons, hkk, hek2]
        exact mapGet_map_replace_ne k k' v hkk rest
      · simp only [Bool.not_eq_true] at he
        rw [mapSet_cons_of_ne e rest k' v he]
        simp only [mapGet, List.find?_cons]
        cases hq : (e.1 == k) with
        | true => rfl
        | false => exact ih

theorem mapKeys_mapSet [LawfulBEq κ] (m : List (κ × ν)) (k : κ) (v : ν) :
    mapKeys (mapSet m k v)
      = if m.any (fun e => e.1 == k) then mapKeys m else mapKeys m ++ [k] := by
  by_cases hany : m.any (fun e => e.1 == k) = true
  · simp only [mapSet, hany, if_true, mapKeys, List.map_map]
    refine List.map_congr_left ?_
    intro e _
    by_cases he : (e.1 == k) = true
    · simp [Function.comp, he, (eq_of_beq he).symm]
    · simp only [Bool.not_eq_true] at he
      simp [Function.comp, he]
  · simp only [Bool.not_eq_true] at hany
    simp [mapSet, hany, mapKeys]

theorem mapKeys_nodup_mapSet [LawfulBEq κ] (m : List (κ × ν)) (k : κ) (v : ν)
    (hnd : (mapKeys m).Nodup) : (mapKeys (mapSet m k v)).Nodup := by
  rw [mapKeys_mapSet]
  by_cases hany : m.any (fun e => e.1 == k) = true
  · simpa [hany] using hnd
  · simp only [Bool.not_eq_true] at hany
    have hk : k ∉ mapKeys m := by
      intro hmem
      rcases List.mem_map.mp hmem with ⟨e, hem, hek⟩
      have hbe : (e.1 == k) = true := beq_iff_eq.mpr hek
      exact List.any_eq_false.mp hany e hem hbe
    simp [hany, List.nodup_append, hnd, hk]

theorem mapGet_eq_some_of_mem [LawfulBEq κ] (m : List (κ × ν)) (k : κ) (v : ν)
    (hnd : (mapKeys m).Nodup) (hm : (k, v) ∈ m) : mapGet m k = some v := by
  induction m with
  | nil => cases hm
  | cons e rest ih =>
      rcases List.mem_cons.mp hm with he | hrest
      · subst he
        simp [mapGet, List.find?_cons]
      · by_cases hek : (e.1 == k) = true
        · exfalso
          have hkk : k ∈ mapKeys rest :=
            List.mem_map.mpr ⟨(k, v), hrest, rfl⟩
          have : e.1 ∈ mapKeys rest := by rw [eq_of_beq hek]; exact hkk
          exact (List.nodup_cons.mp hnd).1 this
        · simp only [Bool.not_eq_true] at hek
          simp only [mapGet, List.find?_cons, hek]
          exact ih (List.nodup_cons.mp hnd).2 hrest

theorem mem_of_mapGet_eq_some [LawfulBEq κ] (m : List (κ × ν)) (k : κ) (v : ν)
    (h : mapGet m k = some v) : (k, v) ∈ m := by
  simp only [mapGet, Option.map_eq_some'] at h
  rcases h with ⟨e, hfind, hev⟩
  have hp := List.find?_some hfind
  have hmem := List.mem_of_find?_eq_some hfind
  obtain ⟨e1, e2⟩ := e
  have h1 : e1 = k := eq_of_beq hp
  subst h1
  simp only at hev
  subst hev
  exact hmem

end MapLemmas

/-- C1 — The labor-cost component of `calculateProductCost` is
`employeeHoursRequired` times the arithmetic mean of `hourlyRate` when the
employee list is nonempty, and `employeeHoursRequired * 15` when it is
empty; on the specification example (one employee-hour, one employee at
rate 15) it is exactly 15. -/
theorem laborCost_mean_or_default (product : Product) (employees : List Employee) :
    (employees ≠ [] →
      laborCostOf product employees
        = product.employeeHoursRequired
            * ((employees.map Employee.hourlyRate).sum / (employees.length : ℚ)))
    ∧ (employees = [] → laborCostOf product employees = product.employeeHoursRequired * 15)
    ∧ laborCostOf exampleProduct [exampleEmployee] = 15 := by
  refine ⟨?_, ?_, ?_⟩
  · intro hne
    have hlen : 0 < employees.length := List.length_pos.mpr hne
    simp only [laborCostOf, averageHourlyRateOf, if_pos hlen, foldl_add_map, zero_add]
  · intro he
    subst he
    simp [laborCostOf, averageHourlyRateOf]
  · norm_num [laborCostOf, averageHourlyRateOf, exampleProduct, exampleEmployee]

/-- Closed instance of `laborCost_mean_or_default` discharging its
hypotheses on concrete inputs. -/
theorem laborCost_mean_or_default_witness :
    laborCostOf exampleProduct [exampleEmployee]
        = exampleProduct.employeeHoursRequired
            * (([exampleEmployee].map Employee.hourlyRate).sum / (([exampleEmployee] : List Employee).length : ℚ))
    ∧ laborCostOf exampleProduct [] = exampleProduct.employeeHoursRequired * 15 := by
  refine ⟨(laborCost_mean_or_default exampleProduct [exampleEmployee]).1 (by simp),
          (laborCost_mean_or_default exampleProduct []).2.1 rfl⟩

/-- C2 — Every division in the cost formula is guarded: the checked
variant of `calculateProductCost`, in which every division site fails
instead of defaulting when its denominator is zero, always succeeds and
returns the value of `calculateProductCost`.  In particular the function
is total (never throws, never produces NaN or Infinity), for every
product — including one with `preparationTime = 0`, which the formula of
this variant never divides by — and every employee list. -/
theorem calculateProductCost_never_divides_by_zero (product : Product)
    (employees : List Employee) :
    calculateProductCostChecked product employees
      = some (calculateProductCost product employees) := by
  rcases employees with _ | ⟨e, es⟩
  · simp [calculateProductCostChecked, calculateProductCost, qdiv?, laborCostOf,
      averageHourlyRateOf, storageCostOf, bind, mul_comm, mul_div_assoc]
  · have hlen : ((es.length : ℚ) + 1) ≠ 0 := by positivity
    simp only [calculateProductCostChecked, calculateProductCost, qdiv?, laborCostOf,
      averageHourlyRateOf, storageCostOf, List.length_cons]
    simp [hlen, bind, mul_div_assoc]

/-- C3 — Whenever `analyzeProductPerformance` returns an analysis, the
breakdown fields sum exactly to the total:
`ingredientCost + laborCost + storageCost = totalCost`, where
`totalCost` is the unit cost of the product times `unitsSold`. -/
theorem analyze_breakdown_sums_to_totalCost (productId : String)
    (products : List Product) (sales : List Sale) (employees : List Employee)
    (a : ProductCostAnalysis)
    (h : analyzeProductPerformance productId products sales employees = some a) :
    a.ingredientCost + a.laborCost + a.storageCost = a.totalCost
    ∧ ∃ product ∈ products,
        a.totalCost = calculateProductCost product employees * a.unitsSold := by
  unfold analyzeProductPerformance at h
  rcases hf : products.find? (fun p => p.id == productId) with _ | product
  · rw [hf] at h; exact absurd h (by simp)
  · rw [hf] at h
    simp only [Option.some.injEq] at h
    subst h
    constructor
    · simp only [calculateProductCost, laborCostOf, storageCostOf]
      ring
    · exact ⟨product, List.mem_of_find?_eq_some hf, rfl⟩

/-- Closed instance of `analyze_breakdown_sums_to_totalCost` on the
specification example snapshot. -/
theorem analyze_breakdown_sums_to_totalCost_witness :
    ∃ a, analyzeProductPerformance "p1" [exampleProduct] [] [exampleEmployee] = some a
      ∧ (a.ingredientCost + a.laborCost + a.storageCost = a.totalCost
         ∧ ∃ product ∈ [exampleProduct],
             a.totalCost = calculateProductCost product [exampleEmployee] * a.unitsSold) := by
  refine ⟨_, rfl, analyze_breakdown_sums_to_totalCost "p1" [exampleProduct] [] [exampleEmployee] _ rfl⟩

/-! ## Lemmas about the by-employee grouping fold -/

/-- The accumulated (revenue, count) value at key `k` after folding `sales`
into map `m`. -/
theorem salesByEmployee_fold_getD (k : String) :
    ∀ (sales : List Sale) (m : List (String × ℚ × ℕ)),
      (mapGet (sales.foldl salesByEmployeeStep m) k).getD (0, 0)
        = (((mapGet m k).getD (0, 0)).1
             + ((sales.filter (fun s => s.employeeId == k)).map
                 (fun s => s.price * s.quantity)).sum,
           ((mapGet m k).getD (0, 0)).2
             + (sales.filter (fun s => s.employeeId == k)).length) := by
  intro sales
  induction sales with
  | nil => intro m; simp
  | cons s rest ih =>
      intro m
      rw [List.foldl_cons, ih]
      by_cases hs : (s.employeeId == k) = true
      · have hks : s.employeeId = k := eq_of_beq hs
        have hget : mapGet (salesByEmployeeStep m s) k
            = some (((mapGet m k).getD (0, 0)).1 + s.price * s.quantity,
                    ((mapGet m k).getD (0, 0)).2 + 1) := by
          rw [salesByEmployeeStep, hks]
          exact mapGet_mapSet_self m k _
        rw [hget]
        simp only [Option.getD_some, List.filter_cons, hs, if_true, List.map_cons,
          List.sum_cons, List.length_cons, Prod.mk.injEq]
        constructor
        · ring
        · omega
      · simp only [Bool.not_eq_true] at hs
        have hks : k ≠ s.employeeId := by
          intro h
          rw [beq_eq_false_iff_ne] at hs
          exact hs h.symm
        have hget : mapGet (salesByEmployeeStep m s) k = mapGet m k :=
          mapGet_mapSet_ne m k s.employeeId _ hks
        rw [hget]
        simp [List.filter_cons, hs]

/-- The key `k` is present in the by-employee map exactly when it was
present before or some sale carries it. -/
theorem salesByEmployee_fold_isSome (k : String) :
    ∀ (sales : List Sale) (m : List (String × ℚ × ℕ)),
      (mapGet (sales.foldl salesByEmployeeStep m) k).isSome
        = ((mapGet m k).isSome || sales.any (fun s => s.employeeId == k)) := by
  intro sales
  induction sales with
  | nil => intro m; simp
  | cons s rest ih =>
      intro m
      rw [List.foldl_cons, ih]
      by_cases hs : (s.employeeId == k) = true
      · have hks : s.employeeId = k := eq_of_beq hs
        have hget : mapGet (salesByEmployeeStep m s) k
            = some (((mapGet m k).getD (0, 0)).1 + s.price * s.quantity,
                    ((mapGet m k).getD (0, 0)).2 + 1) := by
          rw [salesByEmployeeStep, hks]
          exact mapGet_mapSet_self m k _
        simp [hget, List.any_cons, hs]
      · simp only [Bool.not_eq_true] at hs
        have hks : k ≠ s.employeeId := by
          intro h
          rw [beq_eq_false_iff_ne] at hs
          exact hs h.symm
        have hget : mapGet (salesByEmployeeStep m s) k = mapGet m k :=
          mapGet_mapSet_ne m k s.employeeId _ hks
        simp [hget, List.any_cons, hs]

/-- The by-employee fold keeps the map keys duplicate-free. -/
theorem salesByEmployee_fold_nodup :
    ∀ (sales : List Sale) (m : List (String × ℚ × ℕ)),
      (mapKeys m).Nodup → (mapKeys (sales.foldl salesByEmployeeStep m)).Nodup := by
  intro sales
  induction sales with
  | nil => intro m h; exact h
  | cons s rest ih =>
      intro m h
      rw [List.foldl_cons]
      exact ih _ (mapKeys_nodup_mapSet m s.employeeId _ h)

/-- The effect of `mapSet` on the total accumulated revenue. -/
theorem sumRev_mapSet (k : String) (v : ℚ × ℕ) :
    ∀ (m : List (String × ℚ × ℕ)), (mapKeys m).Nodup →
      sumRev (mapSet m k v) = sumRev m - ((mapGet m k).getD (0, 0)).1 + v.1 := by
  intro m
  induction m with
  | nil => intro _; simp [mapSet, sumRev, mapGet]
  | cons e rest ih =>
      intro hnd
      by_cases he : (e.1 == k) = true
      · have hek : e.1 = k := eq_of_beq he
        have hknotin : ∀ x ∈ rest, (x.1 == k) = false := by
          intro x hx
          rw [beq_eq_false_iff_ne]
          intro hxk
          have : e.1 ∈ mapKeys rest := by
            rw [hek, ← hxk]
            exact List.mem_map.mpr ⟨x, hx, rfl⟩
          exact (List.nodup_cons.mp hnd).1 this
        have hrest : rest.map (fun x => if x.1 == k then (k, v) else x) = rest := by
          have h1 : rest.map (fun x => if x.1 == k then (k, v) else x) = rest.map id :=
            List.map_congr_left (fun x hx => by simp [hknotin x hx])
          rw [h1, List.map_id]
        simp only [mapSet, List.any_cons, he, Bool.true_or, if_true, List.map_cons,
          he, if_true, hrest]
        simp only [mapGet, List.find?_cons, he, sumRev, List.map_cons, List.sum_cons,
          Option.map_some', Option.getD_some]
        ring
      · simp only [Bool.not_eq_true] at he
        rw [mapSet_cons_of_ne e rest k v he]
        simp only [sumRev, List.map_cons, List.sum_cons, mapGet, List.find?_cons, he]
        have := ih (List.nodup_cons.mp hnd).2
        simp only [sumRev, mapGet] at this
        rw [this]
        ring

/-- Folding sales into the by-employee map adds exactly the total
`price * quantity` of the folded sales to the accumulated revenue. -/
theorem sumRev_fold :
    ∀ (sales : List Sale) (m : List (String × ℚ × ℕ)), (mapKeys m).Nodup →
      sumRev (sales.foldl salesByEmployeeStep m)
        = sumRev m + (sales.map (fun s => s.price * s.quantity)).sum := by
  intro sales
  induction sales with
  | nil => intro m _; simp
  | cons s rest ih =>
      intro m hnd
      have hnd2 : (mapKeys (salesByEmployeeStep m s)).Nodup := by
        rw [salesByEmployeeStep]
        exact mapKeys_nodup_mapSet m s.employeeId _ hnd
      rw [List.foldl_cons, ih _ hnd2]
      have hstep : sumRev (salesByEmployeeStep m s)
          = sumRev m + s.price * s.quantity := by
        rw [salesByEmployeeStep, sumRev_mapSet _ _ m hnd]
        ring
      rw [hstep, List.map_cons, List.sum_cons]
      ring

/-- A left fold accumulating `+ f x` from 0 is the sum of the mapped list. -/
theorem foldl_add_map_zero {α : Type} (f : α → ℚ) (l : List α) :
    l.foldl (fun s x => s + f x) 0 = (l.map f).sum := by
  simpa using foldl_add_map f l 0

/-- C4 — In `getDashboardStats`, the output field named `totalExpenses` is
the sum of all logged `Expense.amount` PLUS the cost of goods sold (unit
cost times units sold, summed over all products), and `netProfit` is
`totalRevenue` minus that same total. -/
theorem dashboard_totalExpenses_includes_product_costs (products : List Product)
    (sales : List Sale) (expenses : List Expense) (employees : List Employee) :
    (getDashboardStats products sales expenses employees).totalExpenses
      = (expenses.map Expense.amount).sum
        + (products.map (fun product =>
            calculateProductCost product employees
              * ((sales.filter (fun s => s.productId == product.id)).map
                  Sale.quantity).sum)).sum
    ∧ (getDashboardStats products sales expenses employees).netProfit
      = (sales.map (fun s => s.price * s.quantity)).sum
        - ((expenses.map Expense.amount).sum
           + (products.map (fun product =>
               calculateProductCost product employees
                 * ((sales.filter (fun s => s.productId == product.id)).map
                     Sale.quantity).sum)).sum) := by
  constructor <;>
    simp [getDashboardStats, foldl_add_map_zero]

/-- C5 — Conservation of revenue across the by-employee grouping: the
`totalRevenue` entries of `getSalesByEmployee` sum to exactly the
`totalRevenue` of `getDashboardStats`, for every snapshot — including
sales whose `employeeId` matches no employee. -/
theorem salesByEmployee_revenue_conservation (products : List Product)
    (sales : List Sale) (expenses : List Expense) (employees : List Employee) :
    ((getSalesByEmployee sales employees).map SalesByEmployee.totalRevenue).sum
      = (getDashboardStats products sales expenses employees).totalRevenue := by
  rw [getSalesByEmployee,
    ((List.perm_insertionSort revenueGe _).map SalesByEmployee.totalRevenue).sum_eq,
    List.map_map]
  have hrows : ((salesByEmployeeMap sales).map
      (fun e : String × ℚ × ℕ => e.2.1)).sum = sumRev (salesByEmployeeMap sales) := rfl
  rw [show (SalesByEmployee.totalRevenue ∘ fun e : String × ℚ × ℕ =>
      ({ employeeId := e.1
         employeeName := employeeLabel employees e.1
         totalSales := e.2.1
         totalRevenue := e.2.1
         numberOfSales := e.2.2 } : SalesByEmployee))
    = fun e : String × ℚ × ℕ => e.2.1 from rfl]
  rw [hrows, salesByEmployeeMap, sumRev_fold sales [] (by simp [mapKeys])]
  simp [getDashboardStats, foldl_add_map_zero, sumRev]

/-- C6 — `getDashboardStats` returns `topProducts` sorted descending by
margin with at most 10 entries, and every product with zero sales has,
before truncation (in the sorted list of analyses), an analysis with zero
revenue, zero cost and zero margin. -/
theorem dashboard_topProducts_sorted_top10 (products : List Product)
    (sales : List Sale) (expenses : List Expense) (employees : List Employee) :
    List.Sorted marginGe (getDashboardStats products sales expenses employees).topProducts
    ∧ (getDashboardStats products sales expenses employees).topProducts.length ≤ 10
    ∧ ∀ p ∈ products, sales.filter (fun s => s.productId == p.id) = [] →
        ∃ a ∈ List.insertionSort marginGe
            (products.filterMap (fun product =>
              analyzeProductPerformance product.id products sales employees)),
          a.productId = p.id ∧ a.revenue = 0 ∧ a.totalCost = 0 ∧ a.margin = 0 := by
  refine ⟨?_, ?_, ?_⟩
  · have hsorted := List.sorted_insertionSort marginGe
      (products.filterMap (fun product =>
        analyzeProductPerformance product.id products sales employees))
    have htake := List.Pairwise.sublist (List.take_sublist 10 _) hsorted
    simpa [getDashboardStats, List.Sorted] using htake
  · simp [getDashboardStats]
  · intro p hp hfil
    have hfind : (products.find? (fun x => x.id == p.id)).isSome := by
      rw [List.find?_isSome]
      exact ⟨p, hp, by simp⟩
    obtain ⟨q, hq⟩ := Option.isSome_iff_exists.mp hfind
    have hpq := List.find?_some hq
    have hqid : q.id = p.id := eq_of_beq hpq
    have ha : analyzeProductPerformance p.id products sales employees
        = some { productId := q.id, productName := q.name, revenue := 0,
                 ingredientCost := 0, laborCost := 0, storageCost := 0,
                 totalCost := 0, margin := 0, marginPercentage := 0,
                 unitsSold := 0 } := by
      rw [analyzeProductPerformance, hq]
      simp [hfil]
    refine ⟨{ productId := q.id, productName := q.name, revenue := 0,
              ingredientCost := 0, laborCost := 0, storageCost := 0,
              totalCost := 0, margin := 0, marginPercentage := 0,
              unitsSold := 0 }, ?_, hqid, rfl, rfl, rfl⟩
    exact (List.perm_insertionSort marginGe _).mem_iff.mpr
      (List.mem_filterMap.mpr ⟨p, hp, ha⟩)

/-- Closed instance of `dashboard_topProducts_sorted_top10`, discharging
its zero-sales hypothesis on a concrete one-product snapshot. -/
theorem dashboard_topProducts_sorted_top10_witness :
    List.Sorted marginGe (getDashboardStats [exampleProduct] [] [] []).topProducts
    ∧ ∃ a ∈ List.insertionSort marginGe
        ([exampleProduct].filterMap (fun product =>
          analyzeProductPerformance product.id [exampleProduct] [] [])),
      a.productId = exampleProduct.id ∧ a.revenue = 0 ∧ a.totalCost = 0 ∧ a.margin = 0 := by
  obtain ⟨h1, _, h3⟩ := dashboard_topProducts_sorted_top10 [exampleProduct] [] [] []
  exact ⟨h1, h3 exampleProduct (by simp) rfl⟩

/-- C7 (counterexample) — On the snapshot with one sale whose `employeeId`
matches no employee, the grouping does produce a row under the raw id,
but its `employeeName` is NOT the literal label "Unknown": the code uses
the Spanish literal. -/
theorem salesByEmployee_unknown_label_counterexample :
    (∃ row ∈ getSalesByEmployee [danglingSale] [], row.employeeId = "e1")
    ∧ ∀ row ∈ getSalesByEmployee [danglingSale] [], row.employeeName ≠ "Unknown" := by
  decide

/-- C7 (amended) — Every sale whose `employeeId` matches no current
employee still yields an aggregation row under that raw `employeeId`, and
that row's `employeeName` is the literal fallback label "Desconocido". -/
theorem salesByEmployee_dangling_labelled (sales : List Sale)
    (employees : List Employee) (s : Sale) (hs : s ∈ sales)
    (hno : ∀ e ∈ employees, e.id ≠ s.employeeId) :
    ∃ row ∈ getSalesByEmployee sales employees,
      row.employeeId = s.employeeId ∧ row.employeeName = "Desconocido" := by
  have hpres : (mapGet (salesByEmployeeMap sales) s.employeeId).isSome = true := by
    rw [salesByEmployeeMap, salesByEmployee_fold_isSome]
    have : sales.any (fun x => x.employeeId == s.employeeId) = true :=
      List.any_eq_true.mpr ⟨s, hs, by simp⟩
    simp [this]
  obtain ⟨v, hv⟩ := Option.isSome_iff_exists.mp hpres
  have hmem : (s.employeeId, v) ∈ salesByEmployeeMap sales :=
    mem_of_mapGet_eq_some _ _ _ hv
  have hlabel : employeeLabel employees s.employeeId = "Desconocido" := by
    rw [employeeLabel]
    have : employees.find? (fun e => e.id == s.employeeId) = none := by
      rw [List.find?_eq_none]
      intro e he
      simp [hno e he]
    rw [this]
  refine ⟨{ employeeId := s.employeeId
            employeeName := employeeLabel employees s.employeeId
            totalSales := v.1
            totalRevenue := v.1
            numberOfSales := v.2 }, ?_, rfl, hlabel⟩
  rw [getSalesByEmployee]
  exact (List.perm_insertionSort revenueGe _).mem_iff.mpr
    (List.mem_map.mpr ⟨(s.employeeId, v), hmem, rfl⟩)

/-- Closed instance of `salesByEmployee_dangling_labelled` on the concrete
dangling sale. -/
theorem salesByEmployee_dangling_labelled_witness :
    ∃ row ∈ getSalesByEmployee [danglingSale] [],
      row.employeeId = danglingSale.employeeId ∧ row.employeeName = "Desconocido" :=
  salesByEmployee_dangling_labelled [danglingSale] [] danglingSale
    (List.mem_singleton.mpr rfl) (by intro e he; cases he)

/-- C9 — In every row of `getSalesByEmployee` the two fields `totalSales`
and `totalRevenue` are equal, and both equal the sum of
`price * quantity` over that employee's sales. -/
theorem salesByEmployee_totalSales_eq_totalRevenue (sales : List Sale)
    (employees : List Employee) (row : SalesByEmployee)
    (h : row ∈ getSalesByEmployee sales employees) :
    row.totalSales = row.totalRevenue
    ∧ row.totalRevenue
        = ((sales.filter (fun s => s.employeeId == row.employeeId)).map
            (fun s => s.price * s.quantity)).sum := by
  rw [getSalesByEmployee] at h
  have h2 := (List.perm_insertionSort revenueGe _).mem_iff.mp h
  obtain ⟨e, he, hrow⟩ := List.mem_map.mp h2
  have hnd : (mapKeys (salesByEmployeeMap sales)).Nodup := by
    rw [salesByEmployeeMap]
    exact salesByEmployee_fold_nodup sales [] (by simp [mapKeys])
  have hget : mapGet (salesByEmployeeMap sales) e.1 = some e.2 :=
    mapGet_eq_some_of_mem _ _ _ hnd (by simpa using he)
  have hval := salesByEmployee_fold_getD e.1 sales []
  rw [show sales.foldl salesByEmployeeStep [] = salesByEmployeeMap sales from rfl,
    hget] at hval
  simp only [Option.getD_some, mapGet, List.find?_nil, Option.map_none'] at hval
  subst hrow
  refine ⟨rfl, ?_⟩
  show e.2.1
      = ((sales.filter (fun s => s.employeeId == e.1)).map
          (fun s => s.price * s.quantity)).sum
  rw [hval]
  simp

/-- Closed instance of `salesByEmployee_totalSales_eq_totalRevenue` on a
concrete one-sale snapshot. -/
theorem salesByEmployee_totalSales_eq_totalRevenue_witness :
    ∃ row ∈ getSalesByEmployee [danglingSale] [],
      row.totalSales = row.totalRevenue
      ∧ row.totalRevenue
          = (([danglingSale].filter (fun s => s.employeeId == row.employeeId)).map
              (fun s => s.price * s.quantity)).sum := by
  obtain ⟨r, hr⟩ : ∃ r, getSalesByEmployee [danglingSale] [] = [r] := ⟨_, rfl⟩
  have hmem : r ∈ getSalesByEmployee [danglingSale] [] := by
    rw [hr]
    exact List.mem_singleton.mpr rfl
  exact ⟨r, hmem, salesByEmployee_totalSales_eq_totalRevenue [danglingSale] [] r hmem⟩

/-! ## Lemmas about the by-day grouping -/

theorem mem_mapSet {κ ν : Type} [BEq κ] (m : List (κ × ν)) (k : κ) (v : ν)
    (e : κ × ν) (he : e ∈ mapSet m k v) : e ∈ m ∨ e = (k, v) := by
  rw [mapSet] at he
  by_cases hany : m.any (fun x => x.1 == k) = true
  · rw [if_pos hany] at he
    obtain ⟨x, hx, hfx⟩ := List.mem_map.mp he
    by_cases hxk : (x.1 == k) = true
    · right
      rw [if_pos hxk] at hfx
      exact hfx.symm
    · left
      simp only [Bool.not_eq_true] at hxk
      rw [hxk] at hfx
      simp only [Bool.false_eq_true, if_false] at hfx
      rwa [← hfx]
  · rw [if_neg hany] at he
    rcases List.mem_append.mp he with h1 | h1
    · exact Or.inl h1
    · exact Or.inr (List.mem_singleton.mp h1)

theorem eqNum_isSome_left (a b : Option Int) (h : eqNum a b = true) :
    a.isSome = true := by
  cases a <;> cases b <;> simp_all [eqNum]

theorem geNum_isSome_left (a b : Option Int) (h : geNum a b = true) :
    a.isSome = true := by
  cases a <;> cases b <;> simp_all [geNum]

/-- Every sale in the selected window carries a valid date. -/
theorem filteredSalesOf_date_isSome (sales : List Sale) (timeRange : TimeRange)
    (now : DateFields) (fs : List Sale)
    (h : filteredSalesOf sales timeRange now = some fs) :
    ∀ s ∈ fs, s.date.isSome = true := by
  have hmonth : ∀ w, monthWindowOf sales now = some w → ∀ s ∈ w, s.date.isSome = true := by
    intro w hw s hs
    rw [monthWindowOf] at hw
    by_cases hc : (sales.filter (fun sale =>
        eqNum (getMonth sale.date) (some now.month)
          && eqNum (getFullYear sale.date) (some now.year))).length = 0
    · rw [if_pos hc] at hw
      rcases hh : (List.insertionSort timeDesc sales).head? with _ | first
      · rw [hh] at hw
        simp at hw
      · rw [hh] at hw
        simp only [Option.bind_eq_bind, Option.some_bind, Option.pure_def,
          Option.some.injEq] at hw
        subst hw
        have hpred := (List.mem_filter.mp hs).2
        have h1 : eqNum (getMonth s.date) (getMonth first.date) = true :=
          (Bool.and_eq_true_iff.mp hpred).1
        have h2 := eqNum_isSome_left _ _ h1
        rwa [getMonth, Option.isSome_map'] at h2
    · rw [if_neg hc] at hw
      simp only [Option.pure_def, Option.some.injEq] at hw
      subst hw
      have hpred := (List.mem_filter.mp hs).2
      have h1 : eqNum (getMonth s.date) (some now.month) = true :=
        (Bool.and_eq_true_iff.mp hpred).1
      have h2 := eqNum_isSome_left _ _ h1
      rwa [getMonth, Option.isSome_map'] at h2
  rw [filteredSalesOf] at h
  rcases hw : monthWindowOf sales now with _ | w
  · rw [hw] at h
    simp at h
  · rw [hw] at h
    simp only [Option.bind_eq_bind, Option.some_bind] at h
    by_cases ht : timeRange = TimeRange.week
    · rw [if_pos ht] at h
      rcases hh : (List.insertionSort timeDesc w).head? with _ | first
      · rw [hh] at h
        simp at h
      · rw [hh] at h
        simp only [Option.bind_eq_bind, Option.some_bind, Option.pure_def,
          Option.some.injEq] at h
        subst h
        intro s hs
        have hpred := (List.mem_filter.mp hs).2
        have h2 := geNum_isSome_left _ _ hpred
        rwa [getTime, Option.isSome_map'] at h2
    · rw [if_neg ht] at h
      simp only [Option.pure_def, Option.some.injEq] at h
      subst h
      exact hmonth w hw

theorem mem_setAdd (s : List String) (x n : String) (h : n ∈ setAdd s x) :
    n ∈ s ∨ n = x := by
  rw [setAdd] at h
  by_cases hc : s.contains x = true
  · rw [if_pos hc] at h
    exact Or.inl h
  · rw [if_neg hc] at h
    rcases List.mem_append.mp h with h1 | h1
    · exact Or.inl h1
    · exact Or.inr (List.mem_singleton.mp h1)

theorem salesByDayStep_some (employees : List Employee)
    (acc : List (Int × SalesByDay)) (sale : Sale) (acc₁ : List (Int × SalesByDay))
    (h : salesByDayStep employees acc sale = some acc₁) :
    ∃ f, sale.date = some f
      ∧ acc₁ = mapSet acc f.dayOfMonth (salesByDayBucket employees acc sale f) := by
  rw [salesByDayStep] at h
  rcases hd : sale.date with _ | f
  · rw [hd] at h
    simp at h
  · rw [hd] at h
    simp only [Option.bind_eq_bind, Option.some_bind, Option.pure_def,
      Option.some.injEq] at h
    exact ⟨f, rfl, h.symm⟩

theorem salesByDayBucket_rev (employees : List Employee)
    (acc : List (Int × SalesByDay)) (sale : Sale) (f : DateFields) :
    (salesByDayBucket employees acc sale f).totalRevenue
      = revAt acc f.dayOfMonth + sale.price * sale.quantity := by
  rw [salesByDayBucket, revAt]
  rcases mapGet acc f.dayOfMonth with _ | b <;> split <;> simp

theorem salesByDayBucket_qty (employees : List Employee)
    (acc : List (Int × SalesByDay)) (sale : Sale) (f : DateFields) :
    (salesByDayBucket employees acc sale f).totalQuantity
      = qtyAt acc f.dayOfMonth + sale.quantity := by
  rw [salesByDayBucket, qtyAt]
  rcases mapGet acc f.dayOfMonth with _ | b <;> split <;> simp

theorem salesByDayBucket_emp (employees : List Employee)
    (acc : List (Int × SalesByDay)) (sale : Sale) (f : DateFields) (n : String)
    (hn : n ∈ (salesByDayBucket employees acc sale f).employees) :
    n ∈ empAt acc f.dayOfMonth ∨ ∃ e ∈ employees, e.name = n := by
  rw [salesByDayBucket] at hn
  rw [empAt]
  rcases hf : employees.find? (fun e => e.id == sale.employeeId) with _ | emp
  · rw [hf] at hn
    rcases hm : mapGet acc f.dayOfMonth with _ | b <;> rw [hm] at hn <;>
      simp_all
  · rw [hf] at hn
    simp only at hn
    rcases hm : mapGet acc f.dayOfMonth with _ | b <;> rw [hm] at hn <;>
      simp only [Option.getD_some, Option.getD_none] at hn
    · rcases mem_setAdd _ _ _ hn with h1 | h1
      · simp at h1
      · exact Or.inr ⟨emp, List.mem_of_find?_eq_some hf, h1.symm⟩
    · rcases mem_setAdd _ _ _ hn with h1 | h1
      · exact Or.inl h1
      · exact Or.inr ⟨emp, List.mem_of_find?_eq_some hf, h1.symm⟩

theorem salesByDayBucket_day (employees : List Employee)
    (acc : List (Int × SalesByDay)) (sale : Sale) (f : DateFields)
    (hinv : ∀ e ∈ acc, (e : Int × SalesByDay).2.day = e.1) :
    (salesByDayBucket employees acc sale f).day = f.dayOfMonth := by
  rw [salesByDayBucket]
  rcases hm : mapGet acc f.dayOfMonth with _ | b
  · split <;> simp
  · have hb := hinv (f.dayOfMonth, b) (mem_of_mapGet_eq_some _ _ _ hm)
    split <;> simp_all

/-- The per-day totals after the grouping fold: each day's revenue and
quantity grow by exactly the matching sales, and every name added to a
day's employee set is the name of an employee of the roster. -/
theorem salesByDay_fold_spec (employees : List Employee) (d : Int) :
    ∀ (fs : List Sale) (acc m : List (Int × SalesByDay)),
      fs.foldlM (salesByDayStep employees) acc = some m →
      revAt m d = revAt acc d
          + ((fs.filter (fun s => dayOf s == some d)).map
              (fun s => s.price * s.quantity)).sum
      ∧ qtyAt m d = qtyAt acc d
          + ((fs.filter (fun s => dayOf s == some d)).map Sale.quantity).sum
      ∧ ∀ n ∈ empAt m d, n ∈ empAt acc d ∨ ∃ e ∈ employees, e.name = n := by
  intro fs
  induction fs with
  | nil =>
      intro acc m h
      simp only [List.foldlM_nil, Option.pure_def, Option.some.injEq] at h
      subst h
      exact ⟨by simp, by simp, fun n hn => Or.inl hn⟩
  | cons s rest ih =>
      intro acc m h
      rw [List.foldlM_cons] at h
      rcases hstep : salesByDayStep employees acc s with _ | acc₁
      · rw [hstep] at h
        simp at h
      · rw [hstep] at h
        simp only [Option.bind_eq_bind, Option.some_bind] at h
        obtain ⟨f, hsd, hacc⟩ := salesByDayStep_some employees acc s acc₁ hstep
        obtain ⟨ihrev, ihqty, ihemp⟩ := ih acc₁ m h
        have hdayOf : dayOf s = some f.dayOfMonth := by
          rw [dayOf, hsd]
          rfl
        by_cases hd : f.dayOfMonth = d
        · subst hd
          have hBeq : (dayOf s == some f.dayOfMonth) = true := by
            rw [hdayOf]
            exact beq_self_eq_true _
          have hget : mapGet acc₁ f.dayOfMonth
              = some (salesByDayBucket employees acc s f) := by
            rw [hacc]
            exact mapGet_mapSet_self _ _ _
          have hrev1 : revAt acc₁ f.dayOfMonth
              = revAt acc f.dayOfMonth + s.price * s.quantity := by
            rw [revAt, hget]
            exact salesByDayBucket_rev employees acc s f
          have hqty1 : qtyAt acc₁ f.dayOfMonth
              = qtyAt acc f.dayOfMonth + s.quantity := by
            rw [qtyAt, hget]
            exact salesByDayBucket_qty employees acc s f
          refine ⟨?_, ?_, ?_⟩
          · rw [ihrev, hrev1]
            simp only [List.filter_cons, hBeq, if_true, List.map_cons, List.sum_cons]
            ring
          · rw [ihqty, hqty1]
            simp only [List.filter_cons, hBeq, if_true, List.map_cons, List.sum_cons]
            ring
          · intro n hn
            rcases ihemp n hn with h1 | h1
            · rw [empAt, hget] at h1
              exact salesByDayBucket_emp employees acc s f n h1
            · exact Or.inr h1
        · have hne : d ≠ f.dayOfMonth := fun hh => hd hh.symm
          have hget : mapGet acc₁ d = mapGet acc d := by
            rw [hacc]
            exact mapGet_mapSet_ne _ _ _ _ hne
          have hrev1 : revAt acc₁ d = revAt acc d := by
            simp only [revAt, hget]
          have hqty1 : qtyAt acc₁ d = qtyAt acc d := by
            simp only [qtyAt, hget]
          have hemp1 : empAt acc₁ d = empAt acc d := by
            simp only [empAt, hget]
          have hBne : (dayOf s == some d) = false := by
            rw [hdayOf]
            exact beq_eq_false_iff_ne.mpr (fun hh => hd (Option.some.inj hh))
          refine ⟨?_, ?_, ?_⟩
          · rw [ihrev, hrev1]
            simp only [List.filter_cons, hBne, Bool.false_eq_true, if_false]
          · rw [ihqty, hqty1]
            simp only [List.filter_cons, hBne, Bool.false_eq_true, if_false]
          · intro n hn
            rcases ihemp n hn with h1 | h1
            · rw [hemp1] at h1
              exact Or.inl h1
            · exact Or.inr h1

/-- A day key is present in the final grouping map when it was present
before or some folded sale falls on that day. -/
theorem salesByDay_fold_present (employees : List Employee) (d : Int) :
    ∀ (fs : List Sale) (acc m : List (Int × SalesByDay)),
      fs.foldlM (salesByDayStep employees) acc = some m →
      ((mapGet acc d).isSome = true ∨ ∃ s ∈ fs, dayOf s = some d) →
      (mapGet m d).isSome = true := by
  intro fs
  induction fs with
  | nil =>
      intro acc m h hcond
      simp only [List.foldlM_nil, Option.pure_def, Option.some.injEq] at h
      subst h
      rcases hcond with h1 | ⟨s, hs, _⟩
      · exact h1
      · cases hs
  | cons s rest ih =>
      intro acc m h hcond
      rw [List.foldlM_cons] at h
      rcases hstep : salesByDayStep employees acc s with _ | acc₁
      · rw [hstep] at h
        simp at h
      · rw [hstep] at h
        simp only [Option.bind_eq_bind, Option.some_bind] at h
        obtain ⟨f, hsd, hacc⟩ := salesByDayStep_some employees acc s acc₁ hstep
        have hdayOf : dayOf s = some f.dayOfMonth := by
          rw [dayOf, hsd]
          rfl
        have hkeep : (mapGet acc d).isSome = true → (mapGet acc₁ d).isSome = true := by
          intro h1
          by_cases hd : d = f.dayOfMonth
          · subst hd
            rw [hacc, mapGet_mapSet_self]
            rfl
          · rw [hacc, mapGet_mapSet_ne _ _ _ _ hd]
            exact h1
        rcases hcond with h1 | ⟨s', hs', hd'⟩
        · exact ih acc₁ m h (Or.inl (hkeep h1))
        · rcases List.mem_cons.mp hs' with h2 | h2
          · subst h2
            have hfd : f.dayOfMonth = d := by
              rw [hdayOf] at hd'
              exact Option.some.inj hd'
            subst hfd
            refine ih acc₁ m h (Or.inl ?_)
            rw [hacc, mapGet_mapSet_self]
            rfl
          · exact ih acc₁ m h (Or.inr ⟨s', h2, hd'⟩)

/-- Each entry of the grouping map stores a bucket whose `day` field is
its own key. -/
theorem salesByDay_fold_dayinv (employees : List Employee) :
    ∀ (fs : List Sale) (acc m : List (Int × SalesByDay)),
      fs.foldlM (salesByDayStep employees) acc = some m →
      (∀ e ∈ acc, (e : Int × SalesByDay).2.day = e.1) →
      ∀ e ∈ m, (e : Int × SalesByDay).2.day = e.1 := by
  intro fs
  induction fs with
  | nil =>
      intro acc m h hinv
      simp only [List.foldlM_nil, Option.pure_def, Option.some.injEq] at h
      subst h
      exact hinv
  | cons s rest ih =>
      intro acc m h hinv
      rw [List.foldlM_cons] at h
      rcases hstep : salesByDayStep employees acc s with _ | acc₁
      · rw [hstep] at h
        simp at h
      · rw [hstep] at h
        simp only [Option.bind_eq_bind, Option.some_bind] at h
        obtain ⟨f, _, hacc⟩ := salesByDayStep_some employees acc s acc₁ hstep
        refine ih acc₁ m h ?_
        intro e he
        rw [hacc] at he
        rcases mem_mapSet _ _ _ _ he with h1 | h1
        · exact hinv e h1
        · subst h1
          exact salesByDayBucket_day employees acc s f hinv

/-- The grouping fold keeps the day keys duplicate-free. -/
theorem salesByDay_fold_nodupkeys (employees : List Employee) :
    ∀ (fs : List Sale) (acc m : List (Int × SalesByDay)),
      fs.foldlM (salesByDayStep employees) acc = some m →
      (mapKeys acc).Nodup → (mapKeys m).Nodup := by
  intro fs
  induction fs with
  | nil =>
      intro acc m h hnd
      simp only [List.foldlM_nil, Option.pure_def, Option.some.injEq] at h
      subst h
      exact hnd
  | cons s rest ih =>
      intro acc m h hnd
      rw [List.foldlM_cons] at h
      rcases hstep : salesByDayStep employees acc s with _ | acc₁
      · rw [hstep] at h
        simp at h
      · rw [hstep] at h
        simp only [Option.bind_eq_bind, Option.some_bind] at h
        obtain ⟨f, _, hacc⟩ := salesByDayStep_some employees acc s acc₁ hstep
        refine ih acc₁ m h ?_
        rw [hacc]
        exact mapKeys_nodup_mapSet _ _ _ hnd

/-- C8 — Evaluation of `getSalesByDay` at the edges the claim covers.
An empty sales collection yields the empty result, as claimed.  But when
every sale's date is malformed and the "week" range is requested, the
month window is empty (NaN month comparisons all fail), so the
unguarded `sortedFiltered[0].date` access reads a property of
`undefined` and throws — modelled by the `none` result.  The code
therefore CAN throw on malformed dates, contradicting the claim (and the
specification's own guarantee that malformed dates are excluded rather
than crash): the missing emptiness guard is a bug in the code. -/
theorem salesByDay_crash_on_all_invalid_week :
    getSalesByDay [] [] TimeRange.week exampleNow = some []
    ∧ getSalesByDay [danglingSale] [] TimeRange.week exampleNow = none :=
  ⟨rfl, rfl⟩

/-- C10 — For every snapshot on which `getSalesByDay` succeeds, each
returned day row aggregates the `price * quantity` and `quantity` of ALL
window sales of that day — a sale whose `employeeId` matches no employee
contributes like any other — while the row's `employees` list only ever
contains names of actual employees of the roster: the dangling sale adds
no entry at all (no "Unknown"/"Desconocido" sentinel), unlike the
by-employee grouping.  Every window sale's day also has a row. -/
theorem salesByDay_dangling_contributes (sales : List Sale)
    (employees : List Employee) (timeRange : TimeRange) (now : DateFields)
    (fs : List Sale) (res : List SalesByDay)
    (hfs : filteredSalesOf sales timeRange now = some fs)
    (hres : getSalesByDay sales employees timeRange now = some res) :
    (∀ b ∈ res,
       b.totalRevenue = ((fs.filter (fun s => dayOf s == some b.day)).map
           (fun s => s.price * s.quantity)).sum
       ∧ b.totalQuantity = ((fs.filter (fun s => dayOf s == some b.day)).map
           Sale.quantity).sum
       ∧ ∀ n ∈ b.employees, ∃ e ∈ employees, e.name = n)
    ∧ ∀ s ∈ fs, ∃ b ∈ res, dayOf s = some b.day := by
  rw [getSalesByDay] at hres
  by_cases hlen : sales.length = 0
  · have hnil : sales = [] := List.length_eq_zero.mp hlen
    subst hnil
    rw [filteredSalesOf, monthWindowOf] at hfs
    simp at hfs
  · rw [if_neg hlen, hfs] at hres
    simp only [Option.bind_eq_bind, Option.some_bind] at hres
    rcases hm : fs.foldlM (salesByDayStep employees) [] with _ | m
    · rw [hm] at hres
      simp at hres
    · rw [hm] at hres
      simp only [Option.bind_eq_bind, Option.some_bind, Option.pure_def,
        Option.some.injEq] at hres
      subst hres
      have hinv : ∀ e ∈ m, (e : Int × SalesByDay).2.day = e.1 :=
        salesByDay_fold_dayinv employees fs [] m hm (by intro e he; cases he)
      have hnd : (mapKeys m).Nodup :=
        salesByDay_fold_nodupkeys employees fs [] m hm (by simp [mapKeys])
      constructor
      · intro b hb
        have hb2 : b ∈ m.map (fun e => e.2) :=
          (List.perm_insertionSort dayLe _).mem_iff.mp hb
        obtain ⟨e, he, hbe⟩ := List.mem_map.mp hb2
        have hday : e.2.day = e.1 := hinv e he
        have hget : mapGet m e.1 = some e.2 :=
          mapGet_eq_some_of_mem _ _ _ hnd he
        obtain ⟨hrev, hqty, hemp⟩ := salesByDay_fold_spec employees e.1 fs [] m hm
        subst hbe
        rw [hday]
        refine ⟨?_, ?_, ?_⟩
        · have : revAt m e.1 = e.2.totalRevenue := by
            rw [revAt, hget]
          rw [← this, hrev]
          simp [revAt, mapGet]
        · have : qtyAt m e.1 = e.2.totalQuantity := by
            rw [qtyAt, hget]
          rw [← this, hqty]
          simp [qtyAt, mapGet]
        · intro n hn
          have hn2 : n ∈ empAt m e.1 := by
            rw [empAt, hget]
            exact hn
          rcases hemp n hn2 with h1 | h1
          · simp [empAt, mapGet] at h1
          · exact h1
      · intro s hs
        have hv := filteredSalesOf_date_isSome sales timeRange now fs hfs s hs
        obtain ⟨f, hf⟩ := Option.isSome_iff_exists.mp hv
        have hdayOf : dayOf s = some f.dayOfMonth := by
          rw [dayOf, hf]
          rfl
        have hpres : (mapGet m f.dayOfMonth).isSome = true :=
          salesByDay_fold_present employees f.dayOfMonth fs [] m hm
            (Or.inr ⟨s, hs, hdayOf⟩)
        obtain ⟨b, hbg⟩ := Option.isSome_iff_exists.mp hpres
        have hmem : (f.dayOfMonth, b) ∈ m := mem_of_mapGet_eq_some _ _ _ hbg
        have hbday : b.day = f.dayOfMonth := hinv (f.dayOfMonth, b) hmem
        refine ⟨b, ?_, ?_⟩
        · exact (List.perm_insertionSort dayLe _).mem_iff.mpr
            (List.mem_map.mpr ⟨(f.dayOfMonth, b), hmem, rfl⟩)
        · rw [hdayOf, hbday]

/-- Closed instance of `salesByDay_dangling_contributes` on a snapshot
with one valid-dated sale whose `employeeId` matches no employee. -/
theorem salesByDay_dangling_contributes_witness :
    ∃ fs res,
      filteredSalesOf [ghostSale] TimeRange.month exampleNow = some fs
      ∧ getSalesByDay [ghostSale] [] TimeRange.month exampleNow = some res
      ∧ ((∀ b ∈ res,
            b.totalRevenue = ((fs.filter (fun s => dayOf s == some b.day)).map
                (fun s => s.price * s.quantity)).sum
            ∧ b.totalQuantity = ((fs.filter (fun s => dayOf s == some b.day)).map
                Sale.quantity).sum
            ∧ ∀ n ∈ b.employees, ∃ e ∈ ([] : List Employee), e.name = n)
          ∧ ∀ s ∈ fs, ∃ b ∈ res, dayOf s = some b.day) :=
  ⟨_, _, rfl, rfl,
    salesByDay_dangling_contributes [ghostSale] [] TimeRange.month exampleNow
      _ _ rfl rfl⟩
